import Mathlib

/-!
Shallow embedding of the credit ledger of `src/services/creditService.js`
(functions `storeReferralCredit`, `getTotalCreditForCustomer`,
`consumeCreditForCustomer`), together with the JavaScript `Map`/`Set`
operations they use.

Modelling conventions:
- JavaScript numbers are modelled by `ℚ` (the claims are exact arithmetic
  identities over decimal currency amounts); the result of `parseFloat` is
  a `ParsedNumber`, whose `nan` constructor models `NaN`.
- A JavaScript `Map` is an insertion-ordered association list (`Map.set`
  replaces the entry in place when the key is present, otherwise appends);
  a JavaScript `Set` is an insertion-ordered duplicate-free list.
- Optional / possibly-missing payload fields are `Option`s; `none` stands
  for an absent or falsy field.
- The external call `addReferralAdjustment` (the Commission Sync Adapter)
  is modelled by an oracle `syncOk : Nat → ℚ → Bool` deciding whether each
  call succeeds or throws; `consumeCreditForCustomer` records the calls it
  makes, with the outcome, in a trace.  In the source the call sits in a
  `try`/`catch` whose `catch` only logs, so the oracle's answer does not
  influence the ledger state - the embedding reflects exactly that.
-/

namespace UppromoteSealBridge

/-- Result of JavaScript `parseFloat` on a raw commission string: either a
rational value or `NaN`. -/
inductive ParsedNumber where
  | num (q : ℚ)
  | nan
  deriving DecidableEq, Repr

/-- One stored credit record, as built in `storeReferralCredit`
(`src/services/creditService.js`, lines 98-105). -/
structure CreditRecord where
  referralId : Nat
  affiliateId : Option Nat
  affiliateEmail : Option String
  customerEmail : String
  remainingCommission : ℚ
  createdAt : String
  deriving DecidableEq, Repr

/-- An UpPromote referral webhook payload, restricted to the fields the
credit service reads.  `commission` and `commission_amount` carry the
`parseFloat` image of the raw field when the raw field is truthy;
`customer_object_email` models `payload.customer?.email`. -/
structure Payload where
  id : Option Nat
  commission : Option ParsedNumber
  commission_amount : Option ParsedNumber
  customer_email : Option String
  customer_object_email : Option String
  email : Option String
  affiliate_id : Option Nat
  affiliate_email : Option String
  created_at : String
  deriving DecidableEq, Repr

/-- JavaScript `Map.prototype.get` on an insertion-ordered association
list: the first entry with the key, if any. -/
def jsMapGet {α β : Type} [DecidableEq α] : List (α × β) → α → Option β
  | [], _ => none
  | (k', v) :: rest, k => if k' = k then some v else jsMapGet rest k

/-- JavaScript `Map.prototype.set`: replace the entry in place when the key
is present, otherwise append at the end (insertion order preserved). -/
def jsMapSet {α β : Type} [DecidableEq α] : List (α × β) → α → β → List (α × β)
  | [], k, v => [(k, v)]
  | (k', v') :: rest, k, v =>
    if k' = k then (k, v) :: rest else (k', v') :: jsMapSet rest k v

/-- JavaScript `Map.prototype.has`. -/
def jsMapHas {α β : Type} [DecidableEq α] (m : List (α × β)) (k : α) : Bool :=
  (jsMapGet m k).isSome

/-- JavaScript `Math.min` on two (non-`NaN`) numbers. -/
def jsMathMin (a b : ℚ) : ℚ := if a ≤ b then a else b

/-- JavaScript `Set.prototype.add`: append unless already a member. -/
def jsSetAdd (s : List Nat) (x : Nat) : List Nat :=
  if x ∈ s then s else s ++ [x]

/-- The two in-memory maps of the credit service: `referralCredits`
(referralId → record) and `customerToReferrals` (customer email → set of
referral ids). -/
structure LedgerState where
  referralCredits : List (Nat × CreditRecord)
  customerToReferrals : List (String × List Nat)
  deriving DecidableEq, Repr

/-- Both maps start empty (module load). -/
def LedgerState.initial : LedgerState := ⟨[], []⟩

/-- `extractEmailFromReferral` (lines 19-61): `customer_email`, then
`customer?.email`, then `email`, with `affiliate?.email` as the final
fallback. -/
def extractEmailFromReferral (payload : Payload) : Option String :=
  match payload.customer_email, payload.customer_object_email, payload.email with
  | some e, _, _ => some e
  | none, some e, _ => some e
  | none, none, some e => some e
  | none, none, none => payload.affiliate_email

/-- The commission the service parses:
`parseFloat(payload.commission || payload.commission_amount || "0")`
(line 72-73).  An absent/falsy raw field falls through; the final default
`"0"` parses to `0`. -/
def parsedCommission (payload : Payload) : ParsedNumber :=
  ((payload.commission.orElse fun _ => payload.commission_amount).getD (ParsedNumber.num 0))

/-- The `!referralId` test of line 77: true when `payload.id` is absent or
the (falsy) number `0`. -/
def referralIdFalsy (payload : Payload) : Bool :=
  match payload.id with
  | none => true
  | some n => n == 0

/-- `storeReferralCredit` (lines 67-122).  Rejects (returning the state
unchanged) when `!referralId || isNaN(commission)` or when no email can be
extracted; otherwise builds the record, ensures the customer's referral
set exists, adds the referral id to it, and upserts the record. -/
def storeReferralCredit (state : LedgerState) (payload : Payload) : LedgerState :=
  match payload.id, parsedCommission payload, extractEmailFromReferral payload with
  | some referralId, ParsedNumber.num commission, some customerEmail =>
    if referralId = 0 then state
    else
      let record : CreditRecord :=
        { referralId := referralId
          affiliateId := payload.affiliate_id
          affiliateEmail := payload.affiliate_email
          customerEmail := customerEmail
          remainingCommission := commission
          createdAt := payload.created_at }
      let index0 :=
        if jsMapHas state.customerToReferrals customerEmail then state.customerToReferrals
        else jsMapSet state.customerToReferrals customerEmail []
      let ids := (jsMapGet index0 customerEmail).getD []
      { referralCredits := jsMapSet state.referralCredits referralId record
        customerToReferrals := jsMapSet index0 customerEmail (jsSetAdd ids referralId) }
  | _, _, _ => state

/-- `getTotalCreditForCustomer` (lines 127-144): fold over the customer's
referral ids, adding `remainingCommission` of each existing record with
`remainingCommission > 0`. -/
def getTotalCreditForCustomer (state : LedgerState) (customerEmail : String) : ℚ :=
  match jsMapGet state.customerToReferrals customerEmail with
  | none => 0
  | some ids =>
    ids.foldl
      (fun total id =>
        match jsMapGet state.referralCredits id with
        | some r => if r.remainingCommission > 0 then total + r.remainingCommission else total
        | none => total)
      0

/-- The components the allocation loop of `consumeCreditForCustomer`
threads: the updated credits map, the amount still to use, the breakdown
entries `(referralId, used)` produced, and the adapter calls
`(referralId, signedAmount, succeeded)` made. -/
structure LoopResult where
  credits : List (Nat × CreditRecord)
  remainingToUse : ℚ
  breakdown : List (Nat × ℚ)
  adapterCalls : List (Nat × ℚ × Bool)
  deriving DecidableEq, Repr

/-- The `for (const id of ids)` loop of `consumeCreditForCustomer`
(lines 162-191).  For each id: break when nothing remains to use, skip
missing or exhausted records, debit `use = min(remainingCommission,
remainingToUse)`, call the adapter with `(id, -use)` inside a
`try`/`catch` whose `catch` only logs (so the outcome `syncOk id (-use)`
is recorded in the trace but changes nothing), then push the breakdown
entry and continue. -/
def consumeLoop (syncOk : Nat → ℚ → Bool) :
    List (Nat × CreditRecord) → ℚ → List Nat → LoopResult
  | credits, remainingToUse, [] => ⟨credits, remainingToUse, [], []⟩
  | credits, remainingToUse, id :: rest =>
    if remainingToUse ≤ 0 then ⟨credits, remainingToUse, [], []⟩
    else
      match jsMapGet credits id with
      | none => consumeLoop syncOk credits remainingToUse rest
      | some r =>
        if r.remainingCommission ≤ 0 then consumeLoop syncOk credits remainingToUse rest
        else
          let use := jsMathMin r.remainingCommission remainingToUse
          let credits' :=
            jsMapSet credits id { r with remainingCommission := r.remainingCommission - use }
          let ok := syncOk id (-use)
          let res := consumeLoop syncOk credits' (remainingToUse - use) rest
          ⟨res.credits, res.remainingToUse, (id, use) :: res.breakdown,
            (id, -use, ok) :: res.adapterCalls⟩

/-- What `consumeCreditForCustomer` produces: the updated ledger state, the
returned `{used, breakdown}`, and the trace of Commission Sync Adapter
calls it made. -/
structure ConsumeResult where
  state : LedgerState
  used : ℚ
  breakdown : List (Nat × ℚ)
  adapterCalls : List (Nat × ℚ × Bool)
  deriving DecidableEq, Repr

/-- `consumeCreditForCustomer` (lines 152-202): empty result for an
unknown customer or an empty referral set, otherwise run the allocation
loop and return `used = amountToUse - remainingToUse` with the breakdown. -/
def consumeCreditForCustomer (syncOk : Nat → ℚ → Bool) (state : LedgerState)
    (customerEmail : String) (amountToUse : ℚ) : ConsumeResult :=
  match jsMapGet state.customerToReferrals customerEmail with
  | none => ⟨state, 0, [], []⟩
  | some ids =>
    if ids.isEmpty then ⟨state, 0, [], []⟩
    else
      let res := consumeLoop syncOk state.referralCredits amountToUse ids
      ⟨{ state with referralCredits := res.credits },
        amountToUse - res.remainingToUse, res.breakdown, res.adapterCalls⟩

/-- One call on the ledger: either `storeReferralCredit` from the
referral-approved webhook, or `consumeCreditForCustomer` (with its adapter
oracle) from the subscription-charge webhook. -/
inductive LedgerOp where
  | store (payload : Payload)
  | consume (syncOk : Nat → ℚ → Bool) (customerEmail : String) (amountToUse : ℚ)

/-- Apply one ledger operation to the state. -/
def applyOp (state : LedgerState) : LedgerOp → LedgerState
  | .store payload => storeReferralCredit state payload
  | .consume syncOk customerEmail amountToUse =>
    (consumeCreditForCustomer syncOk state customerEmail amountToUse).state

/-- Run a sequence of ledger operations from the empty initial state. -/
def runOps (ops : List LedgerOp) : LedgerState :=
  ops.foldl applyOp LedgerState.initial

/-- Every stored record has a non-negative remaining commission. -/
def NonNegState (state : LedgerState) : Prop :=
  ∀ p ∈ state.referralCredits, 0 ≤ p.2.remainingCommission

instance (state : LedgerState) : Decidable (NonNegState state) :=
  List.decidableBAll _ _

/-- A `store` operation whose payload's commission parses to a
non-negative number (a `consume` is unconstrained). -/
def opStoresNonNeg : LedgerOp → Bool
  | .store payload =>
    match parsedCommission payload with
    | .num q => decide (0 ≤ q)
    | .nan => true
  | .consume _ _ _ => true

/-- Sum of the remaining commissions of all stored records. -/
def totalRemaining (m : List (Nat × CreditRecord)) : ℚ :=
  (m.map fun p => p.2.remainingCommission).sum

/-- The index map after the `has`/`set`-empty-set step of
`storeReferralCredit` (lines 107-110). -/
def indexWithCustomer (s : LedgerState) (e : String) : List (String × List Nat) :=
  if jsMapHas s.customerToReferrals e then s.customerToReferrals
  else jsMapSet s.customerToReferrals e []

/-- The contribution of one referral id to `getTotalCreditForCustomer`:
the record's remaining commission when it exists and is positive, else 0. -/
def positivePart (s : LedgerState) (id : Nat) : ℚ :=
  match jsMapGet s.referralCredits id with
  | some r => if r.remainingCommission > 0 then r.remainingCommission else 0
  | none => 0

/-- The total that the specification's words describe for
`totalCreditFor`: the sum of `remainingCommission` over every record
whose referral id is in the customer's index set, each missing record
contributing 0.  Written from the spec sentence, for comparison with the
source's `getTotalCreditForCustomer`. -/
def specTotalCreditFor (s : LedgerState) (e : String) : ℚ :=
  match jsMapGet s.customerToReferrals e with
  | none => 0
  | some ids =>
    (ids.map fun id =>
      ((jsMapGet s.referralCredits id).map fun r => r.remainingCommission).getD 0).sum

/-! Concrete inputs used by witnesses and counterexamples. -/

/-- An always-succeeding Commission Sync Adapter. -/
def syncAll : Nat → ℚ → Bool := fun _ _ => true

/-- An adapter that fails exactly on referral 1. -/
def syncFail1 : Nat → ℚ → Bool := fun id _ => id != 1

/-- An adapter that fails exactly on referral 2. -/
def syncFail2 : Nat → ℚ → Bool := fun id _ => id != 2

/-- Referral 1, commission 10, customer `c@x`. -/
def pR1 : Payload :=
  { id := some 1, commission := some (.num 10), commission_amount := none
    customer_email := some "c@x", customer_object_email := none, email := none
    affiliate_id := none, affiliate_email := none, created_at := "t1" }

/-- Referral 2, commission 5, customer `c@x`. -/
def pR2 : Payload :=
  { id := some 2, commission := some (.num 5), commission_amount := none
    customer_email := some "c@x", customer_object_email := none, email := none
    affiliate_id := none, affiliate_email := none, created_at := "t2" }

/-- A re-approval of referral 1 with a different commission (4). -/
def pR1b : Payload :=
  { id := some 1, commission := some (.num 4), commission_amount := none
    customer_email := some "c@x", customer_object_email := none, email := none
    affiliate_id := none, affiliate_email := none, created_at := "t3" }

/-- Referral 1 with a negative parsed commission (-5): `parseFloat("-5")`
is a number, not `NaN`. -/
def pNeg : Payload :=
  { id := some 1, commission := some (.num (-5)), commission_amount := none
    customer_email := some "c@x", customer_object_email := none, email := none
    affiliate_id := none, affiliate_email := none, created_at := "t1" }

/-- Referral 1 whose commission string parses to `NaN`. -/
def pNan : Payload :=
  { id := some 1, commission := some .nan, commission_amount := none
    customer_email := some "c@x", customer_object_email := none, email := none
    affiliate_id := none, affiliate_email := none, created_at := "t1" }

/-- Referral 7, commission 5, attributed to customer `a@x`. -/
def pA : Payload :=
  { id := some 7, commission := some (.num 5), commission_amount := none
    customer_email := some "a@x", customer_object_email := none, email := none
    affiliate_id := none, affiliate_email := none, created_at := "t1" }

/-- Referral 7 again, commission 7, attributed to customer `b@x`. -/
def pB : Payload :=
  { id := some 7, commission := some (.num 7), commission_amount := none
    customer_email := some "b@x", customer_object_email := none, email := none
    affiliate_id := none, affiliate_email := none, created_at := "t2" }

/-- State after storing referral 1 (10 for `c@x`) then referral 2
(5 for `c@x`). -/
def sFifo : LedgerState := storeReferralCredit (storeReferralCredit .initial pR1) pR2

/-- State after storing the negative-commission payload. -/
def sNeg : LedgerState := storeReferralCredit .initial pNeg

/-- State after storing referral 7 for `a@x` and then re-storing it for
`b@x`. -/
def sAB : LedgerState := storeReferralCredit (storeReferralCredit .initial pA) pB

section MapLemmas

variable {α β : Type} [DecidableEq α]

theorem jsMapGet_set_self (m : List (α × β)) (k : α) (v : β) :
    jsMapGet (jsMapSet m k v) k = some v := by
  induction m with
  | nil => simp [jsMapGet, jsMapSet]
  | cons p rest ih =>
    by_cases h : p.1 = k
    · simp [jsMapSet, jsMapGet, h]
    · simpa [jsMapSet, jsMapGet, h] using ih

theorem jsMapGet_set_ne (m : List (α × β)) (k k' : α) (v : β) (h : k' ≠ k) :
    jsMapGet (jsMapSet m k v) k' = jsMapGet m k' := by
  have h' : ¬k = k' := fun hh => h hh.symm
  induction m with
  | nil => simp [jsMapGet, jsMapSet, h']
  | cons p rest ih =>
    by_cases hp : p.1 = k
    · simp [jsMapSet, jsMapGet, hp, h']
    · by_cases hp' : p.1 = k' <;> simp [jsMapSet, jsMapGet, hp, hp', ih, h]

theorem mem_of_jsMapGet {m : List (α × β)} {k : α} {v : β}
    (h : jsMapGet m k = some v) : (k, v) ∈ m := by
  induction m with
  | nil => simp [jsMapGet] at h
  | cons p rest ih =>
    obtain ⟨a, b⟩ := p
    by_cases hp : a = k
    · cases hp
      have h' : some b = some v := by simpa [jsMapGet] using h
      cases h'
      exact List.mem_cons_self _ _
    · simp only [jsMapGet, if_neg hp] at h
      exact List.mem_cons_of_mem _ (ih h)

theorem mem_jsMapSet {m : List (α × β)} {k : α} {v : β} {p : α × β}
    (h : p ∈ jsMapSet m k v) : p ∈ m ∨ p = (k, v) := by
  induction m with
  | nil => simpa [jsMapSet] using h
  | cons q rest ih =>
    by_cases hq : q.1 = k
    · simp only [jsMapSet, hq, if_pos, List.mem_cons] at h
      rcases h with h | h
      · right; exact h
      · left; exact List.mem_cons_of_mem _ h
    · simp only [jsMapSet, hq, if_neg, if_false, List.mem_cons] at h
      rcases h with h | h
      · left; simp [h]
      · rcases ih h with h' | h'
        · left; exact List.mem_cons_of_mem _ h'
        · right; exact h'

theorem keys_jsMapSet_of_get {m : List (α × β)} {k : α} {v₀ : β} (v : β)
    (h : jsMapGet m k = some v₀) :
    (jsMapSet m k v).map Prod.fst = m.map Prod.fst := by
  induction m with
  | nil => simp [jsMapGet] at h
  | cons p rest ih =>
    obtain ⟨a, b⟩ := p
    by_cases hp : a = k
    · simp [jsMapSet, hp]
    · simp only [jsMapGet, if_neg hp] at h
      simp [jsMapSet, hp, ih h]

theorem jsMapGet_eq_none_of_not_mem_keys {m : List (α × β)} {k : α}
    (h : k ∉ m.map Prod.fst) : jsMapGet m k = none := by
  induction m with
  | nil => rfl
  | cons p rest ih =>
    obtain ⟨a, b⟩ := p
    simp only [List.map_cons, List.mem_cons] at h
    push_neg at h
    have ha : ¬a = k := fun hh => h.1 hh.symm
    simp only [jsMapGet, if_neg ha]
    exact ih h.2

theorem totalRemaining_jsMapSet {m : List (Nat × CreditRecord)} {k : Nat}
    {r : CreditRecord} (v : CreditRecord)
    (hnd : (m.map Prod.fst).Nodup) (h : jsMapGet m k = some r) :
    totalRemaining (jsMapSet m k v)
      = totalRemaining m - r.remainingCommission + v.remainingCommission := by
  induction m with
  | nil => simp [jsMapGet] at h
  | cons p rest ih =>
    simp only [List.map_cons, List.nodup_cons] at hnd
    by_cases hp : p.1 = k
    · simp only [jsMapGet, hp, if_pos] at h
      cases h
      simp only [jsMapSet, hp, if_pos, totalRemaining, List.map_cons, List.sum_cons]
      ring
    · simp only [jsMapGet, hp, if_neg, if_false] at h
      simp only [jsMapSet, hp, if_neg, if_false, totalRemaining, List.map_cons, List.sum_cons]
      have := ih hnd.2 h
      simp only [totalRemaining] at this
      rw [this]
      ring

end MapLemmas

theorem jsMathMin_le_left (a b : ℚ) : jsMathMin a b ≤ a := by
  unfold jsMathMin
  split
  · exact le_refl a
  · exact le_of_not_le (by assumption)

theorem jsMathMin_le_right (a b : ℚ) : jsMathMin a b ≤ b := by
  unfold jsMathMin
  split
  · assumption
  · exact le_refl b

theorem jsMathMin_pos {a b : ℚ} (ha : 0 < a) (hb : 0 < b) : 0 < jsMathMin a b := by
  unfold jsMathMin
  split
  · exact ha
  · exact hb

section LoopLemmas

/-- The allocation loop's ledger effect, returned amount and breakdown do
not depend on the adapter outcomes: the `catch` block swallows failures.
Only the success flags of the call trace differ. -/
theorem consumeLoop_syncOk_irrel (syncOk syncOk' : Nat → ℚ → Bool) :
    ∀ (ids : List Nat) (credits : List (Nat × CreditRecord)) (remainingToUse : ℚ),
      (consumeLoop syncOk credits remainingToUse ids).credits
          = (consumeLoop syncOk' credits remainingToUse ids).credits ∧
        (consumeLoop syncOk credits remainingToUse ids).remainingToUse
          = (consumeLoop syncOk' credits remainingToUse ids).remainingToUse ∧
        (consumeLoop syncOk credits remainingToUse ids).breakdown
          = (consumeLoop syncOk' credits remainingToUse ids).breakdown ∧
        (consumeLoop syncOk credits remainingToUse ids).adapterCalls.map (fun t => (t.1, t.2.1))
          = (consumeLoop syncOk' credits remainingToUse ids).adapterCalls.map
              (fun t => (t.1, t.2.1)) := by
  intro ids
  induction ids with
  | nil => intro credits rtu; simp [consumeLoop]
  | cons id rest ih =>
    intro credits rtu
    by_cases h0 : rtu ≤ 0
    · simp [consumeLoop, h0]
    · cases hg : jsMapGet credits id with
      | none => simpa [consumeLoop, h0, hg] using ih credits rtu
      | some r =>
        by_cases hr : r.remainingCommission ≤ 0
        · simpa [consumeLoop, h0, hg, hr] using ih credits rtu
        · have h := ih
            (jsMapSet credits id
              { r with remainingCommission :=
                  r.remainingCommission - jsMathMin r.remainingCommission rtu })
            (rtu - jsMathMin r.remainingCommission rtu)
          simp only [consumeLoop, h0, hg, hr, if_false, if_neg, not_false_iff]
          simp only [List.map_cons]
          exact ⟨h.1, h.2.1, by rw [h.2.2.1], by rw [h.2.2.2]⟩

/-- The loop never touches the record of a referral id outside the
iterated id list. -/
theorem consumeLoop_get_of_not_mem (syncOk : Nat → ℚ → Bool) (k : Nat) :
    ∀ (ids : List Nat) (credits : List (Nat × CreditRecord)) (remainingToUse : ℚ),
      k ∉ ids →
      jsMapGet (consumeLoop syncOk credits remainingToUse ids).credits k
        = jsMapGet credits k := by
  intro ids
  induction ids with
  | nil => intro credits rtu _; simp [consumeLoop]
  | cons id rest ih =>
    intro credits rtu hk
    simp only [List.mem_cons, not_or] at hk
    by_cases h0 : rtu ≤ 0
    · simp [consumeLoop, h0]
    · cases hg : jsMapGet credits id with
      | none => simp [consumeLoop, h0, hg, ih _ _ hk.2]
      | some r =>
        by_cases hr : r.remainingCommission ≤ 0
        · simp [consumeLoop, h0, hg, hr, ih _ _ hk.2]
        · simp only [consumeLoop, h0, hg, hr, if_false, if_neg, not_false_iff]
          rw [ih _ _ hk.2, jsMapGet_set_ne _ _ _ _ hk.1]

/-- Every breakdown entry's referral id comes from the iterated id list. -/
theorem consumeLoop_breakdown_mem (syncOk : Nat → ℚ → Bool) :
    ∀ (ids : List Nat) (credits : List (Nat × CreditRecord)) (remainingToUse : ℚ)
      (b : Nat × ℚ), b ∈ (consumeLoop syncOk credits remainingToUse ids).breakdown →
      b.1 ∈ ids := by
  intro ids
  induction ids with
  | nil => intro credits rtu b hb; simp [consumeLoop] at hb
  | cons id rest ih =>
    intro credits rtu b hb
    by_cases h0 : rtu ≤ 0
    · simp [consumeLoop, h0] at hb
    · cases hg : jsMapGet credits id with
      | none =>
        simp only [consumeLoop, h0, hg, if_false, if_neg, not_false_iff] at hb
        exact List.mem_cons_of_mem _ (ih _ _ _ hb)
      | some r =>
        by_cases hr : r.remainingCommission ≤ 0
        · simp only [consumeLoop, h0, hg, hr, if_false, if_neg, not_false_iff] at hb
          exact List.mem_cons_of_mem _ (ih _ _ _ hb)
        · simp only [consumeLoop, h0, hg, hr, if_false, if_neg, not_false_iff,
            List.mem_cons] at hb
          rcases hb with hb | hb
          · simp [hb]
          · exact List.mem_cons_of_mem _ (ih _ _ _ hb)

/-- Conservation along the loop: the amount still to use drops by exactly
the sum of the breakdown, the total stored commission drops by the same
sum, and the key set of the credits map is unchanged. -/
theorem consumeLoop_conservation (syncOk : Nat → ℚ → Bool) :
    ∀ (ids : List Nat) (credits : List (Nat × CreditRecord)) (remainingToUse : ℚ),
      (credits.map Prod.fst).Nodup →
      (consumeLoop syncOk credits remainingToUse ids).remainingToUse
          = remainingToUse
            - ((consumeLoop syncOk credits remainingToUse ids).breakdown.map
                (fun b => b.2)).sum ∧
        totalRemaining (consumeLoop syncOk credits remainingToUse ids).credits
          = totalRemaining credits
            - ((consumeLoop syncOk credits remainingToUse ids).breakdown.map
                (fun b => b.2)).sum ∧
        (consumeLoop syncOk credits remainingToUse ids).credits.map Prod.fst
          = credits.map Prod.fst := by
  intro ids
  induction ids with
  | nil => intro credits rtu _; simp [consumeLoop]
  | cons id rest ih =>
    intro credits rtu hnd
    by_cases h0 : rtu ≤ 0
    · simp [consumeLoop, h0]
    · cases hg : jsMapGet credits id with
      | none => simpa [consumeLoop, h0, hg] using ih credits rtu hnd
      | some r =>
        by_cases hr : r.remainingCommission ≤ 0
        · simpa [consumeLoop, h0, hg, hr] using ih credits rtu hnd
        · have hkeys :=
            keys_jsMapSet_of_get
              (m := credits) (k := id)
              { r with remainingCommission :=
                  r.remainingCommission - jsMathMin r.remainingCommission rtu } hg
          have hnd' : ((jsMapSet credits id
              { r with remainingCommission :=
                  r.remainingCommission - jsMathMin r.remainingCommission rtu }).map
                Prod.fst).Nodup := by
            rw [hkeys]; exact hnd
          have htot :=
            totalRemaining_jsMapSet
              (m := credits) (k := id)
              { r with remainingCommission :=
                  r.remainingCommission - jsMathMin r.remainingCommission rtu } hnd hg
          have h := ih
            (jsMapSet credits id
              { r with remainingCommission :=
                  r.remainingCommission - jsMathMin r.remainingCommission rtu })
            (rtu - jsMathMin r.remainingCommission rtu) hnd'
          simp only [consumeLoop, h0, hg, hr, if_false, if_neg, not_false_iff,
            List.map_cons, List.sum_cons]
          refine ⟨by rw [h.1]; ring, ?_, by rw [h.2.2, hkeys]⟩
          rw [h.2.1, htot]
          ring

/-- Exact per-entry effect of the loop: when the iterated ids are
duplicate-free, each breakdown entry `(id, u)` corresponds to a record
that went from its pre-loop value `r` to exactly
`r.remainingCommission - u` - whether or not the adapter call for it
succeeded. -/
theorem consumeLoop_breakdown_entry (syncOk : Nat → ℚ → Bool) :
    ∀ (ids : List Nat) (credits : List (Nat × CreditRecord)) (remainingToUse : ℚ),
      ids.Nodup →
      ∀ id u, (id, u) ∈ (consumeLoop syncOk credits remainingToUse ids).breakdown →
        ∃ r, jsMapGet credits id = some r ∧
          jsMapGet (consumeLoop syncOk credits remainingToUse ids).credits id
            = some { r with remainingCommission := r.remainingCommission - u } := by
  intro ids
  induction ids with
  | nil => intro credits rtu _ id u hb; simp [consumeLoop] at hb
  | cons hd rest ih =>
    intro credits rtu hnd id u hb
    rw [List.nodup_cons] at hnd
    by_cases h0 : rtu ≤ 0
    · simp [consumeLoop, h0] at hb
    · cases hg : jsMapGet credits hd with
      | none =>
        simp only [consumeLoop, h0, hg, if_false, if_neg, not_false_iff] at hb ⊢
        exact ih _ _ hnd.2 id u hb
      | some r =>
        by_cases hr : r.remainingCommission ≤ 0
        · simp only [consumeLoop, h0, hg, hr, if_false, if_neg, not_false_iff] at hb ⊢
          exact ih _ _ hnd.2 id u hb
        · simp only [consumeLoop, h0, hg, hr, if_false, if_neg, not_false_iff,
            List.mem_cons, Prod.mk.injEq] at hb ⊢
          rcases hb with ⟨hbid, hbu⟩ | hb
          · subst hbid
            subst hbu
            refine ⟨r, hg, ?_⟩
            rw [consumeLoop_get_of_not_mem _ _ _ _ _ hnd.1, jsMapGet_set_self]
          · have hidmem : id ∈ rest := consumeLoop_breakdown_mem _ _ _ _ _ hb
            have hne : id ≠ hd := fun he => hnd.1 (he ▸ hidmem)
            obtain ⟨r', hr1, hr2⟩ := ih _ _ hnd.2 id u hb
            rw [jsMapGet_set_ne _ _ _ _ hne] at hr1
            exact ⟨r', hr1, hr2⟩

/-- The loop preserves non-negativity of every stored record: each debit
subtracts `jsMathMin remainingCommission remainingToUse`, which never
exceeds the record's remaining commission. -/
theorem consumeLoop_nonneg (syncOk : Nat → ℚ → Bool) :
    ∀ (ids : List Nat) (credits : List (Nat × CreditRecord)) (remainingToUse : ℚ),
      (∀ p ∈ credits, 0 ≤ p.2.remainingCommission) →
      ∀ p ∈ (consumeLoop syncOk credits remainingToUse ids).credits,
        0 ≤ p.2.remainingCommission := by
  intro ids
  induction ids with
  | nil => intro credits rtu h p hp; exact h p hp
  | cons id rest ih =>
    intro credits rtu h p hp
    by_cases h0 : rtu ≤ 0
    · simp only [consumeLoop, h0, if_pos] at hp
      exact h p hp
    · cases hg : jsMapGet credits id with
      | none =>
        simp only [consumeLoop, h0, hg, if_false, if_neg, not_false_iff] at hp
        exact ih _ _ h p hp
      | some r =>
        by_cases hr : r.remainingCommission ≤ 0
        · simp only [consumeLoop, h0, hg, hr, if_false, if_neg, not_false_iff] at hp
          exact ih _ _ h p hp
        · simp only [consumeLoop, h0, hg, hr, if_false, if_neg, not_false_iff] at hp
          refine ih _ _ ?_ p hp
          intro q hq
          rcases mem_jsMapSet hq with hq' | hq'
          · exact h q hq'
          · subst hq'
            simp only
            have := jsMathMin_le_left r.remainingCommission rtu
            linarith

/-- The loop never increases any record's remaining commission. -/
theorem consumeLoop_get_mono (syncOk : Nat → ℚ → Bool) :
    ∀ (ids : List Nat) (credits : List (Nat × CreditRecord)) (remainingToUse : ℚ)
      (id : Nat) (r r' : CreditRecord),
      jsMapGet credits id = some r →
      jsMapGet (consumeLoop syncOk credits remainingToUse ids).credits id = some r' →
      r'.remainingCommission ≤ r.remainingCommission := by
  intro ids
  induction ids with
  | nil =>
    intro credits rtu id r r' h1 h2
    simp only [consumeLoop] at h2
    rw [h1] at h2
    cases h2
    exact le_refl _
  | cons hd rest ih =>
    intro credits rtu id r r' h1 h2
    by_cases h0 : rtu ≤ 0
    · simp only [consumeLoop, h0, if_pos] at h2
      rw [h1] at h2
      cases h2
      exact le_refl _
    · cases hg : jsMapGet credits hd with
      | none =>
        simp only [consumeLoop, h0, hg, if_false, if_neg, not_false_iff] at h2
        exact ih _ _ _ _ _ h1 h2
      | some r₀ =>
        by_cases hr : r₀.remainingCommission ≤ 0
        · simp only [consumeLoop, h0, hg, hr, if_false, if_neg, not_false_iff] at h2
          exact ih _ _ _ _ _ h1 h2
        · simp only [consumeLoop, h0, hg, hr, if_false, if_neg, not_false_iff] at h2
          by_cases hid : id = hd
          · subst hid
            rw [h1] at hg
            cases hg
            have hget : jsMapGet
                (jsMapSet credits id
                  { r with remainingCommission :=
                      r.remainingCommission - jsMathMin r.remainingCommission rtu }) id
                = some { r with remainingCommission :=
                    r.remainingCommission - jsMathMin r.remainingCommission rtu } :=
              jsMapGet_set_self _ _ _
            have hmono := ih _ _ _ _ _ hget h2
            simp only at hmono
            have hpos : 0 < jsMathMin r.remainingCommission rtu :=
              jsMathMin_pos (lt_of_not_le hr) (lt_of_not_le h0)
            linarith
          · have hget : jsMapGet
                (jsMapSet credits hd
                  { r₀ with remainingCommission :=
                      r₀.remainingCommission - jsMathMin r₀.remainingCommission rtu }) id
                = some r := by
              rw [jsMapGet_set_ne _ _ _ _ hid]; exact h1
            exact ih _ _ _ _ _ hget h2

end LoopLemmas

section StoreLemmas

theorem mem_jsSetAdd_self (s : List Nat) (x : Nat) : x ∈ jsSetAdd s x := by
  unfold jsSetAdd
  split
  · assumption
  · simp

theorem mem_jsSetAdd_of_mem {s : List Nat} {y : Nat} (x : Nat) (h : y ∈ s) :
    y ∈ jsSetAdd s x := by
  unfold jsSetAdd
  split
  · exact h
  · simp [h]

/-- A rejected `storeReferralCredit` call (falsy referral id, `NaN`
commission, or no extractable email) leaves the state unchanged. -/
theorem storeReferralCredit_reject (s : LedgerState) (p : Payload)
    (h : referralIdFalsy p = true ∨ parsedCommission p = ParsedNumber.nan ∨
      extractEmailFromReferral p = none) :
    storeReferralCredit s p = s := by
  rcases hid : p.id with _ | n
  · simp [storeReferralCredit, hid]
  · rcases hc : parsedCommission p with q | _
    · rcases he : extractEmailFromReferral p with _ | e
      · simp [storeReferralCredit, hid, hc, he]
      · rcases h with h | h | h
        · unfold referralIdFalsy at h
          rw [hid] at h
          have hn : n = 0 := by simpa using h
          simp [storeReferralCredit, hid, hc, he, hn]
        · rw [hc] at h; cases h
        · rw [he] at h; simp at h
    · simp [storeReferralCredit, hid, hc]

/-- An accepted `storeReferralCredit` call upserts the built record under
the referral id and adds the referral id to the extracted customer's
index set (creating the set when absent). -/
theorem storeReferralCredit_accept (s : LedgerState) (p : Payload)
    (id : Nat) (c : ℚ) (e : String)
    (hid : p.id = some id) (hid0 : id ≠ 0)
    (hc : parsedCommission p = ParsedNumber.num c)
    (he : extractEmailFromReferral p = some e) :
    storeReferralCredit s p =
      { referralCredits :=
          jsMapSet s.referralCredits id
            { referralId := id, affiliateId := p.affiliate_id,
              affiliateEmail := p.affiliate_email, customerEmail := e,
              remainingCommission := c, createdAt := p.created_at }
        customerToReferrals :=
          jsMapSet (indexWithCustomer s e) e
            (jsSetAdd ((jsMapGet (indexWithCustomer s e) e).getD []) id) } := by
  simp [storeReferralCredit, hid, hc, he, hid0, indexWithCustomer]

/-- After an accepted store, the extracted customer's index set contains
the referral id. -/
theorem storeReferralCredit_mem_index (s : LedgerState) (p : Payload)
    (id : Nat) (c : ℚ) (e : String)
    (hid : p.id = some id) (hid0 : id ≠ 0)
    (hc : parsedCommission p = ParsedNumber.num c)
    (he : extractEmailFromReferral p = some e) :
    id ∈ ((jsMapGet (storeReferralCredit s p).customerToReferrals e).getD []) := by
  rw [storeReferralCredit_accept s p id c e hid hid0 hc he]
  simp only [jsMapGet_set_self, Option.getD_some]
  exact mem_jsSetAdd_self _ _

/-- A store only touches the extracted customer's index entry. -/
theorem storeReferralCredit_index_other (s : LedgerState) (p : Payload)
    (id : Nat) (c : ℚ) (e e' : String) (hne : e' ≠ e)
    (hid : p.id = some id) (hid0 : id ≠ 0)
    (hc : parsedCommission p = ParsedNumber.num c)
    (he : extractEmailFromReferral p = some e) :
    jsMapGet (storeReferralCredit s p).customerToReferrals e'
      = jsMapGet s.customerToReferrals e' := by
  rw [storeReferralCredit_accept s p id c e hid hid0 hc he]
  simp only
  rw [jsMapGet_set_ne _ _ _ _ hne]
  unfold indexWithCustomer
  split
  · rfl
  · rw [jsMapGet_set_ne _ _ _ _ hne]

/-- A store whose commission parses to a non-negative value preserves
non-negativity of all stored records. -/
theorem storeReferralCredit_nonneg (s : LedgerState) (p : Payload)
    (h : ∀ q ∈ s.referralCredits, 0 ≤ q.2.remainingCommission)
    (hop : opStoresNonNeg (LedgerOp.store p) = true) :
    ∀ q ∈ (storeReferralCredit s p).referralCredits, 0 ≤ q.2.remainingCommission := by
  rcases hid : p.id with _ | n
  · rw [storeReferralCredit_reject s p (by simp [referralIdFalsy, hid])]; exact h
  · rcases hc : parsedCommission p with c | _
    · rcases he : extractEmailFromReferral p with _ | e
      · rw [storeReferralCredit_reject s p (Or.inr (Or.inr he))]; exact h
      · by_cases hn : n = 0
        · rw [storeReferralCredit_reject s p (by simp [referralIdFalsy, hid, hn])]; exact h
        · rw [storeReferralCredit_accept s p n c e hid hn hc he]
          intro q hq
          rcases mem_jsMapSet hq with hq' | hq'
          · exact h q hq'
          · subst hq'
            simp only
            simp only [opStoresNonNeg, hc] at hop
            simpa using hop
    · rw [storeReferralCredit_reject s p (Or.inr (Or.inl hc))]; exact h

end StoreLemmas

section TotalLemmas

theorem positivePart_nonneg (s : LedgerState) (id : Nat) : 0 ≤ positivePart s id := by
  unfold positivePart
  rcases jsMapGet s.referralCredits id with _ | r
  · exact le_refl 0
  · simp only
    split
    · linarith [lt_of_lt_of_le (by norm_num : (0 : ℚ) < 1) (le_refl 1)]
    · exact le_refl 0

theorem getTotal_foldl (s : LedgerState) :
    ∀ (ids : List Nat) (a : ℚ),
      ids.foldl
        (fun total id =>
          match jsMapGet s.referralCredits id with
          | some r => if r.remainingCommission > 0 then total + r.remainingCommission else total
          | none => total)
        a
      = a + ((ids.map (positivePart s)).sum) := by
  intro ids
  induction ids with
  | nil => intro a; simp
  | cons id rest ih =>
    intro a
    simp only [List.foldl_cons, List.map_cons, List.sum_cons]
    cases hg : jsMapGet s.referralCredits id with
    | none =>
      rw [ih]
      simp [positivePart, hg]
    | some r =>
      by_cases hr : r.remainingCommission > 0
      · simp only [hg, hr, if_pos]
        rw [ih]
        simp only [positivePart, hg, hr, if_pos]
        ring
      · simp only [hg, hr, if_neg, if_false]
        rw [ih]
        simp only [positivePart, hg, hr, if_neg, if_false]
        ring

/-- `getTotalCreditForCustomer` is the sum of the positive parts of the
records reachable from the customer's index set. -/
theorem getTotal_eq_sum (s : LedgerState) (e : String) (ids : List Nat)
    (h : jsMapGet s.customerToReferrals e = some ids) :
    getTotalCreditForCustomer s e = ((ids.map (positivePart s)).sum) := by
  unfold getTotalCreditForCustomer
  rw [h]
  simp only
  rw [getTotal_foldl]
  ring

/-- Under non-negativity of every stored record, the source's
positive-only summation agrees with the spec's per-id contribution
(missing record contributing 0). -/
theorem positivePart_eq (s : LedgerState) (hnn : NonNegState s) (id : Nat) :
    positivePart s id
      = ((jsMapGet s.referralCredits id).map fun r => r.remainingCommission).getD 0 := by
  unfold positivePart
  cases hg : jsMapGet s.referralCredits id with
  | none => rfl
  | some r =>
    have h0 : 0 ≤ r.remainingCommission := hnn _ (mem_of_jsMapGet hg)
    by_cases hp : r.remainingCommission > 0
    · simp [hp]
    · have h1 : r.remainingCommission = 0 := le_antisymm (not_lt.mp hp) h0
      simp [hp, h1]

/-- A record reachable from a customer's index set bounds the customer's
total from below, when all records are non-negative. -/
theorem record_le_total (s : LedgerState) (e : String) (ids : List Nat) (id : Nat)
    (r : CreditRecord)
    (hids : jsMapGet s.customerToReferrals e = some ids) (hmem : id ∈ ids)
    (hr : jsMapGet s.referralCredits id = some r) :
    r.remainingCommission ≤ getTotalCreditForCustomer s e := by
  rw [getTotal_eq_sum s e ids hids]
  have h1 : positivePart s id ∈ ids.map (positivePart s) := List.mem_map_of_mem _ hmem
  have h2 : ∀ x ∈ ids.map (positivePart s), (0 : ℚ) ≤ x := by
    intro x hx
    obtain ⟨j, _, rfl⟩ := List.mem_map.mp hx
    exact positivePart_nonneg s j
  have h3 : positivePart s id ≤ (ids.map (positivePart s)).sum :=
    List.single_le_sum h2 _ h1
  have h4 : r.remainingCommission ≤ positivePart s id := by
    unfold positivePart
    rw [hr]
    simp only
    split
    · exact le_refl _
    · have : ¬r.remainingCommission > 0 := by assumption
      linarith
  linarith

end TotalLemmas

section ConsumeLemmas

/-- Consuming preserves non-negativity of every stored record. -/
theorem consume_nonneg (syncOk : Nat → ℚ → Bool) (s : LedgerState) (e : String) (amt : ℚ)
    (h : NonNegState s) :
    NonNegState (consumeCreditForCustomer syncOk s e amt).state := by
  unfold consumeCreditForCustomer
  cases hids : jsMapGet s.customerToReferrals e with
  | none => exact h
  | some ids =>
    by_cases hemp : ids.isEmpty
    · simp only [hemp, if_pos]
      exact h
    · simp only [hemp, if_neg, if_false, Bool.false_eq_true, not_false_iff]
      intro p hp
      exact consumeLoop_nonneg syncOk ids s.referralCredits amt h p hp

/-- Consuming never increases any record's remaining commission. -/
theorem consume_mono (syncOk : Nat → ℚ → Bool) (s : LedgerState) (e : String) (amt : ℚ)
    (id : Nat) (r r' : CreditRecord)
    (h1 : jsMapGet s.referralCredits id = some r)
    (h2 : jsMapGet (consumeCreditForCustomer syncOk s e amt).state.referralCredits id
      = some r') :
    r'.remainingCommission ≤ r.remainingCommission := by
  unfold consumeCreditForCustomer at h2
  cases hids : jsMapGet s.customerToReferrals e with
  | none =>
    rw [hids] at h2
    simp only at h2
    rw [h1] at h2
    cases h2
    exact le_refl _
  | some ids =>
    rw [hids] at h2
    by_cases hemp : ids.isEmpty
    · simp only [hemp, if_pos] at h2
      rw [h1] at h2
      cases h2
      exact le_refl _
    · simp only [hemp, if_neg, if_false, Bool.false_eq_true, not_false_iff] at h2
      exact consumeLoop_get_mono syncOk ids s.referralCredits amt id r r' h1 h2

/-- Running non-negative-commission operations from a non-negative state
keeps every record non-negative. -/
theorem runOps_nonneg_aux :
    ∀ (ops : List LedgerOp) (s : LedgerState),
      (∀ op ∈ ops, opStoresNonNeg op = true) → NonNegState s →
      NonNegState (ops.foldl applyOp s) := by
  intro ops
  induction ops with
  | nil => intro s _ h; exact h
  | cons op rest ih =>
    intro s hops h
    simp only [List.foldl_cons]
    refine ih _ (fun o ho => hops o (List.mem_cons_of_mem _ ho)) ?_
    have hop := hops op (List.mem_cons_self _ _)
    cases op with
    | store p => exact storeReferralCredit_nonneg s p h hop
    | consume syncOk e amt => exact consume_nonneg syncOk s e amt h

end ConsumeLemmas

section CountLemmas

/-- Effect of `jsMapSet` on the number of entries stored under the key:
one entry if there was none, otherwise the count is unchanged. -/
theorem countP_jsMapSet_key (m : List (Nat × CreditRecord)) (k : Nat) (v : CreditRecord) :
    (jsMapSet m k v).countP (fun q => q.1 == k)
      = max (m.countP (fun q => q.1 == k)) 1 := by
  induction m with
  | nil => simp [jsMapSet]
  | cons p rest ih =>
    obtain ⟨a, b⟩ := p
    by_cases ha : a = k
    · subst ha
      simp [jsMapSet, List.countP_cons]
    · have hb : (a == k) = false := by simp [ha]
      simp [jsMapSet, ha, List.countP_cons, hb, ih]

end CountLemmas

/-- C9: for a customer key with no entry in the customer index,
`getTotalCreditForCustomer` returns 0, and `consumeCreditForCustomer`
returns `{used: 0, breakdown: []}` with the state unchanged and no
Commission Sync Adapter call made. -/
theorem C9_unknown_customer (syncOk : Nat → ℚ → Bool) (s : LedgerState)
    (e : String) (amt : ℚ) (h : jsMapGet s.customerToReferrals e = none) :
    getTotalCreditForCustomer s e = 0 ∧
      consumeCreditForCustomer syncOk s e amt
        = { state := s, used := 0, breakdown := [], adapterCalls := [] } := by
  unfold getTotalCreditForCustomer consumeCreditForCustomer
  rw [h]
  exact ⟨rfl, rfl⟩

/-- Witness for C9 at the unknown customer `nobody@example.com` of the
empty initial state, requested amount 50. -/
theorem C9_witness :
    getTotalCreditForCustomer LedgerState.initial "nobody@example.com" = 0 ∧
      consumeCreditForCustomer syncAll LedgerState.initial "nobody@example.com" 50
        = { state := LedgerState.initial, used := 0, breakdown := [],
            adapterCalls := [] } :=
  C9_unknown_customer syncAll LedgerState.initial "nobody@example.com" 50 rfl

/-- C5: with referrals stored in order R1 (id 1, remaining 10) then R2
(id 2, remaining 5) for customer `c@x`, `consume(c@x, 12)` with every
sync succeeding debits R1 by exactly 10 and then R2 by exactly 2, the
breakdown lists R1 before R2, and the adapter is called in that same
order. -/
theorem C5_fifo_allocation :
    jsMapGet sFifo.customerToReferrals "c@x" = some [1, 2] ∧
      (consumeCreditForCustomer syncAll sFifo "c@x" 12).breakdown = [(1, 10), (2, 2)] ∧
      (consumeCreditForCustomer syncAll sFifo "c@x" 12).used = 12 ∧
      (consumeCreditForCustomer syncAll sFifo "c@x" 12).adapterCalls
        = [(1, -10, true), (2, -2, true)] ∧
      (jsMapGet (consumeCreditForCustomer syncAll sFifo "c@x" 12).state.referralCredits
          1).map (fun r => r.remainingCommission) = some 0 ∧
      (jsMapGet (consumeCreditForCustomer syncAll sFifo "c@x" 12).state.referralCredits
          2).map (fun r => r.remainingCommission) = some 3 := by
  norm_num [consumeCreditForCustomer, consumeLoop, storeReferralCredit, jsMapGet, jsMapSet,
    jsMapHas, jsSetAdd, jsMathMin, parsedCommission, extractEmailFromReferral, sFifo, pR1,
    pR2, LedgerState.initial, syncAll]

/-- C3: a consume call in which every adapter call succeeded returns a
`used` equal to the sum of the breakdown's `used` entries, and the total
remaining commission of the store drops by exactly that amount. -/
theorem C3_conservation (syncOk : Nat → ℚ → Bool) (s : LedgerState) (e : String)
    (amt : ℚ) (hnd : (s.referralCredits.map Prod.fst).Nodup)
    (hok : ∀ t ∈ (consumeCreditForCustomer syncOk s e amt).adapterCalls, t.2.2 = true) :
    (consumeCreditForCustomer syncOk s e amt).used
        = ((consumeCreditForCustomer syncOk s e amt).breakdown.map fun b => b.2).sum ∧
      totalRemaining s.referralCredits
          - totalRemaining (consumeCreditForCustomer syncOk s e amt).state.referralCredits
        = (consumeCreditForCustomer syncOk s e amt).used := by
  clear hok
  unfold consumeCreditForCustomer
  cases hids : jsMapGet s.customerToReferrals e with
  | none => simp
  | some ids =>
    by_cases hemp : ids.isEmpty
    · simp [hemp]
    · simp only [hemp, if_neg, if_false, Bool.false_eq_true, not_false_iff]
      have h := consumeLoop_conservation syncOk ids s.referralCredits amt hnd
      constructor
      · rw [h.1]; ring
      · rw [h.2.1, h.1]; ring

/-- Witness for C3 on the two-referral state with an always-succeeding
adapter and requested amount 12. -/
theorem C3_witness :
    (consumeCreditForCustomer syncAll sFifo "c@x" 12).used
        = ((consumeCreditForCustomer syncAll sFifo "c@x" 12).breakdown.map fun b => b.2).sum ∧
      totalRemaining sFifo.referralCredits
          - totalRemaining (consumeCreditForCustomer syncAll sFifo "c@x" 12).state.referralCredits
        = (consumeCreditForCustomer syncAll sFifo "c@x" 12).used :=
  C3_conservation syncAll sFifo "c@x" 12
    (by norm_num [sFifo, storeReferralCredit, jsMapGet, jsMapSet, jsMapHas, jsSetAdd,
      parsedCommission, extractEmailFromReferral, pR1, pR2, LedgerState.initial])
    (by
      intro t ht
      have hcalls : (consumeCreditForCustomer syncAll sFifo "c@x" 12).adapterCalls
          = [(1, -10, true), (2, -2, true)] := by
        norm_num [consumeCreditForCustomer, consumeLoop, storeReferralCredit, jsMapGet,
          jsMapSet, jsMapHas, jsSetAdd, jsMathMin, parsedCommission,
          extractEmailFromReferral, sFifo, pR1, pR2, LedgerState.initial, syncAll]
      rw [hcalls] at ht
      simp only [List.mem_cons, List.not_mem_nil, or_false] at ht
      rcases ht with ht | ht <;> rw [ht])

/-- Counterexample to C1: on the two-referral state, consume 12 with an
adapter that fails on referral 2 (the 2nd referral debited).  The failed
call `(2, -2, false)` is in the trace, referral 2's remaining commission
was 5 before the call, yet afterwards it is 3 - the debited value, not
the pre-call value the claim requires. -/
theorem C1_counterexample :
    (consumeCreditForCustomer syncFail2 sFifo "c@x" 12).adapterCalls
        = [(1, -10, true), (2, -2, false)] ∧
      (jsMapGet sFifo.referralCredits 2).map (fun r => r.remainingCommission) = some 5 ∧
      (jsMapGet (consumeCreditForCustomer syncFail2 sFifo "c@x" 12).state.referralCredits
          2).map (fun r => r.remainingCommission) = some 3 ∧
      (3 : ℚ) ≠ 5 := by
  norm_num [consumeCreditForCustomer, consumeLoop, storeReferralCredit, jsMapGet, jsMapSet,
    jsMapHas, jsSetAdd, jsMathMin, parsedCommission, extractEmailFromReferral, sFifo, pR1,
    pR2, LedgerState.initial, syncFail2]

/-- C1 as amended: there is no rollback.  Whatever the adapter outcomes
(including a failure on the k-th referral debited), every breakdown entry
`(id, u)` leaves that referral's record at exactly its pre-call value
minus `u` - the failing referral retains its debited value just like
referrals 1..k-1. -/
theorem C1_no_rollback (syncOk : Nat → ℚ → Bool) (s : LedgerState) (e : String)
    (amt : ℚ) (ids : List Nat)
    (hids : jsMapGet s.customerToReferrals e = some ids) (hnd : ids.Nodup)
    (id : Nat) (u : ℚ)
    (hmem : (id, u) ∈ (consumeCreditForCustomer syncOk s e amt).breakdown) :
    ∃ r, jsMapGet s.referralCredits id = some r ∧
      jsMapGet (consumeCreditForCustomer syncOk s e amt).state.referralCredits id
        = some { r with remainingCommission := r.remainingCommission - u } := by
  unfold consumeCreditForCustomer at hmem ⊢
  rw [hids] at hmem ⊢
  by_cases hemp : ids.isEmpty
  · simp [hemp] at hmem
  · simp only [hemp, if_neg, if_false, Bool.false_eq_true, not_false_iff] at hmem ⊢
    exact consumeLoop_breakdown_entry syncOk ids s.referralCredits amt hnd id u hmem

/-- Witness for C1's amended statement: referral 2, debited 2 while its
adapter call failed, ends at its pre-call value minus 2. -/
theorem C1_witness :
    ∃ r, jsMapGet sFifo.referralCredits 2 = some r ∧
      jsMapGet (consumeCreditForCustomer syncFail2 sFifo "c@x" 12).state.referralCredits 2
        = some { r with remainingCommission := r.remainingCommission - 2 } :=
  C1_no_rollback syncFail2 sFifo "c@x" 12 [1, 2]
    (by norm_num [sFifo, storeReferralCredit, jsMapGet, jsMapSet, jsMapHas, jsSetAdd,
      parsedCommission, extractEmailFromReferral, pR1, pR2, LedgerState.initial])
    (by decide) 2 2
    (by norm_num [consumeCreditForCustomer, consumeLoop, storeReferralCredit, jsMapGet,
      jsMapSet, jsMapHas, jsSetAdd, jsMathMin, parsedCommission, extractEmailFromReferral,
      sFifo, pR1, pR2, LedgerState.initial, syncFail2])

/-- Counterexample to C2: consume 12 with an adapter failing on referral
1.  The failed call `(1, -10, false)` is in the trace, yet the call
returns the normal `{used: 12, breakdown: [(1,10),(2,2)]}` result, and
referral 2 - after the failing one - is still debited from 5 down to 3:
the failure neither propagates nor aborts the loop. -/
theorem C2_counterexample :
    (consumeCreditForCustomer syncFail1 sFifo "c@x" 12).adapterCalls
        = [(1, -10, false), (2, -2, true)] ∧
      (consumeCreditForCustomer syncFail1 sFifo "c@x" 12).used = 12 ∧
      (consumeCreditForCustomer syncFail1 sFifo "c@x" 12).breakdown = [(1, 10), (2, 2)] ∧
      (jsMapGet (consumeCreditForCustomer syncFail1 sFifo "c@x" 12).state.referralCredits
          2).map (fun r => r.remainingCommission) = some 3 := by
  norm_num [consumeCreditForCustomer, consumeLoop, storeReferralCredit, jsMapGet, jsMapSet,
    jsMapHas, jsSetAdd, jsMathMin, parsedCommission, extractEmailFromReferral, sFifo, pR1,
    pR2, LedgerState.initial, syncFail1]

/-- C2 as amended: adapter failures are swallowed by the `catch` block.
The resulting state, returned `used`, breakdown, and the sequence of
adjustments sent are identical to a run in which every call succeeds:
nothing is propagated and no referral is skipped. -/
theorem C2_failure_swallowed (syncOk : Nat → ℚ → Bool) (s : LedgerState) (e : String)
    (amt : ℚ) :
    (consumeCreditForCustomer syncOk s e amt).state
        = (consumeCreditForCustomer (fun _ _ => true) s e amt).state ∧
      (consumeCreditForCustomer syncOk s e amt).used
        = (consumeCreditForCustomer (fun _ _ => true) s e amt).used ∧
      (consumeCreditForCustomer syncOk s e amt).breakdown
        = (consumeCreditForCustomer (fun _ _ => true) s e amt).breakdown ∧
      ((consumeCreditForCustomer syncOk s e amt).adapterCalls.map fun t => (t.1, t.2.1))
        = ((consumeCreditForCustomer (fun _ _ => true) s e amt).adapterCalls.map
            fun t => (t.1, t.2.1)) := by
  unfold consumeCreditForCustomer
  cases hids : jsMapGet s.customerToReferrals e with
  | none => exact ⟨rfl, rfl, rfl, rfl⟩
  | some ids =>
    by_cases hemp : ids.isEmpty
    · simp [hemp]
    · simp only [hemp, if_neg, if_false, Bool.false_eq_true, not_false_iff]
      have h := consumeLoop_syncOk_irrel syncOk (fun _ _ => true) ids s.referralCredits amt
      exact ⟨by rw [h.1], by rw [h.2.1], h.2.2.1, h.2.2.2⟩

/-- Counterexample to C4: `storeReferralCredit` only checks
`isNaN(commission)`, so storing a payload whose commission parses to -5
creates a record with `remainingCommission = -5 < 0`. -/
theorem C4_counterexample :
    (jsMapGet (runOps [LedgerOp.store pNeg]).referralCredits 1).map
        (fun r => r.remainingCommission) = some (-5) ∧
      ¬NonNegState (runOps [LedgerOp.store pNeg]) := by
  constructor
  · norm_num [runOps, applyOp, storeReferralCredit, parsedCommission,
      extractEmailFromReferral, pNeg, LedgerState.initial, jsMapGet, jsMapSet, jsMapHas,
      jsSetAdd]
  · intro h
    have h5 := h (1,
      { referralId := 1, affiliateId := none, affiliateEmail := none,
        customerEmail := "c@x", remainingCommission := -5, createdAt := "t1" })
      (by norm_num [runOps, applyOp, storeReferralCredit, parsedCommission,
        extractEmailFromReferral, pNeg, LedgerState.initial, jsMapGet, jsMapSet, jsMapHas,
        jsSetAdd])
    norm_num at h5

/-- C4 as amended: in every run in which each stored commission parses to
a non-negative number, all records stay non-negative at all times; and
`consume` only ever decreases a record's remaining commission
(`storeReferralCredit` of a re-approval may also lower it by
overwriting). -/
theorem C4_nonneg (ops : List LedgerOp)
    (hops : ∀ op ∈ ops, opStoresNonNeg op = true) :
    NonNegState (runOps ops) ∧
      ∀ (syncOk : Nat → ℚ → Bool) (e : String) (amt : ℚ) (id : Nat)
        (r r' : CreditRecord),
        jsMapGet (runOps ops).referralCredits id = some r →
        jsMapGet (consumeCreditForCustomer syncOk (runOps ops) e
            amt).state.referralCredits id = some r' →
        r'.remainingCommission ≤ r.remainingCommission := by
  constructor
  · refine runOps_nonneg_aux ops LedgerState.initial hops ?_
    intro p hp
    simp [LedgerState.initial] at hp
  · intro syncOk e amt id r r' h1 h2
    exact consume_mono syncOk (runOps ops) e amt id r r' h1 h2

/-- Witness for C4's amended statement: two non-negative stores followed
by a consume leave every record non-negative. -/
theorem C4_witness :
    NonNegState (runOps [LedgerOp.store pR1, LedgerOp.store pR2,
      LedgerOp.consume syncAll "c@x" 4]) :=
  (C4_nonneg [LedgerOp.store pR1, LedgerOp.store pR2,
    LedgerOp.consume syncAll "c@x" 4] (by decide)).1

/-- Counterexample to C6: the negative-commission payload is accepted,
not rejected - the store is changed and the record carries
`remainingCommission = -5`, although -5 is not a finite number ≥ 0. -/
theorem C6_counterexample :
    (storeReferralCredit LedgerState.initial pNeg).referralCredits ≠ [] ∧
      (jsMapGet (storeReferralCredit LedgerState.initial pNeg).referralCredits 1).map
        (fun r => r.remainingCommission) = some (-5) := by
  norm_num [storeReferralCredit, parsedCommission, extractEmailFromReferral, pNeg,
    LedgerState.initial, jsMapGet, jsMapSet, jsMapHas, jsSetAdd]

/-- C6 as amended: `storeReferralCredit` rejects - leaving Store and
Index completely unchanged - when the referral id is falsy, the
commission parses to `NaN`, or no email can be derived; any commission
that parses to a number is accepted and stored as-is, with no `≥ 0` (or
finiteness) check. -/
theorem C6_validation (s : LedgerState) (p : Payload) :
    (referralIdFalsy p = true ∨ parsedCommission p = ParsedNumber.nan ∨
        extractEmailFromReferral p = none → storeReferralCredit s p = s) ∧
      (∀ id c e, p.id = some id → id ≠ 0 → parsedCommission p = ParsedNumber.num c →
        extractEmailFromReferral p = some e →
        (jsMapGet (storeReferralCredit s p).referralCredits id).map
          (fun r => r.remainingCommission) = some c) := by
  constructor
  · exact storeReferralCredit_reject s p
  · intro id c e hid hid0 hc he
    rw [storeReferralCredit_accept s p id c e hid hid0 hc he]
    simp [jsMapGet_set_self]

/-- Witness for C6's amended statement: a `NaN` commission is rejected
with no state change, while the negative commission -5 is accepted and
stored. -/
theorem C6_witness :
    storeReferralCredit LedgerState.initial pNan = LedgerState.initial ∧
      (jsMapGet (storeReferralCredit LedgerState.initial pNeg).referralCredits 1).map
        (fun r => r.remainingCommission) = some (-5) :=
  ⟨(C6_validation LedgerState.initial pNan).1 (Or.inr (Or.inl rfl)),
    (C6_validation LedgerState.initial pNeg).2 1 (-5) "c@x" rfl (by decide) rfl rfl⟩

/-- C7: storing twice under the same referral id (with different
commission amounts) leaves exactly one record under that id, and its
remaining commission is the latest call's amount, not the sum. -/
theorem C7_last_write_wins (s : LedgerState) (p₁ p₂ : Payload) (id : Nat)
    (c₁ c₂ : ℚ) (e₁ e₂ : String)
    (hcount : s.referralCredits.countP (fun q => q.1 == id) ≤ 1)
    (hne : c₁ ≠ c₂)
    (hid1 : p₁.id = some id) (hid0 : id ≠ 0)
    (hc1 : parsedCommission p₁ = ParsedNumber.num c₁)
    (he1 : extractEmailFromReferral p₁ = some e₁)
    (hid2 : p₂.id = some id)
    (hc2 : parsedCommission p₂ = ParsedNumber.num c₂)
    (he2 : extractEmailFromReferral p₂ = some e₂) :
    (storeReferralCredit (storeReferralCredit s p₁) p₂).referralCredits.countP
        (fun q => q.1 == id) = 1 ∧
      (jsMapGet (storeReferralCredit (storeReferralCredit s p₁) p₂).referralCredits
          id).map (fun r => r.remainingCommission) = some c₂ := by
  rw [storeReferralCredit_accept s p₁ id c₁ e₁ hid1 hid0 hc1 he1,
    storeReferralCredit_accept _ p₂ id c₂ e₂ hid2 hid0 hc2 he2]
  constructor
  · simp only [countP_jsMapSet_key]
    omega
  · simp [jsMapGet_set_self]

/-- Witness for C7: storing referral 1 with 10 and then with 4 leaves one
record with remaining commission 4. -/
theorem C7_witness :
    (storeReferralCredit (storeReferralCredit LedgerState.initial pR1)
        pR1b).referralCredits.countP (fun q => q.1 == 1) = 1 ∧
      (jsMapGet (storeReferralCredit (storeReferralCredit LedgerState.initial pR1)
          pR1b).referralCredits 1).map (fun r => r.remainingCommission) = some 4 :=
  C7_last_write_wins LedgerState.initial pR1 pR1b 1 10 4 "c@x" "c@x"
    (by decide) (by norm_num) rfl (by decide) rfl rfl rfl rfl rfl

/-- Counterexample to C8: after storing the negative-commission payload,
the code's total for `c@x` is 0 (records with non-positive remaining
commission are skipped), while the sum over every record in the index
set, as the claim states it, is -5. -/
theorem C8_counterexample :
    getTotalCreditForCustomer sNeg "c@x" = 0 ∧
      specTotalCreditFor sNeg "c@x" = -5 ∧
      (0 : ℚ) ≠ -5 := by
  norm_num [getTotalCreditForCustomer, specTotalCreditFor, sNeg, storeReferralCredit,
    jsMapGet, jsMapSet, jsMapHas, jsSetAdd, parsedCommission, extractEmailFromReferral,
    pNeg, LedgerState.initial]

/-- C8 as amended: `getTotalCreditForCustomer` sums only the records with
positive remaining commission (skipping missing ids and non-positive
records); whenever every stored record is non-negative this equals the
claim's sum over every record in the customer's index set.  The
embedding is a pure function of the state, reflecting that the source
mutates nothing here. -/
theorem C8_total (s : LedgerState) (e : String) (hnn : NonNegState s) :
    getTotalCreditForCustomer s e = specTotalCreditFor s e := by
  unfold specTotalCreditFor
  cases hids : jsMapGet s.customerToReferrals e with
  | none =>
    unfold getTotalCreditForCustomer
    rw [hids]
  | some ids =>
    rw [getTotal_eq_sum s e ids hids]
    simp only
    have h : positivePart s = fun id =>
        ((jsMapGet s.referralCredits id).map fun r => r.remainingCommission).getD 0 :=
      funext (positivePart_eq s hnn)
    rw [h]

/-- Witness for C8's amended statement on the non-negative two-referral
state. -/
theorem C8_witness :
    getTotalCreditForCustomer sFifo "c@x" = specTotalCreditFor sFifo "c@x" :=
  C8_total sFifo "c@x"
    (by
      intro p hp
      norm_num [sFifo, storeReferralCredit, parsedCommission, extractEmailFromReferral,
        pR1, pR2, LedgerState.initial, jsMapGet, jsMapSet, jsMapHas, jsSetAdd] at hp
      rcases hp with hp | hp <;> rw [hp] <;> norm_num)

/-- C10: storing the same referral id for two different customer keys
leaves the id in both customers' index sets, the stored record carries
the latest commission, and that amount is counted in both customers'
totals. -/
theorem C10_shared_referral (s : LedgerState) (p₁ p₂ : Payload) (id : Nat)
    (c₁ c₂ : ℚ) (e₁ e₂ : String)
    (hnn : NonNegState s) (hc1nn : 0 ≤ c₁) (hc2nn : 0 ≤ c₂) (hne : e₁ ≠ e₂)
    (hid1 : p₁.id = some id) (hid0 : id ≠ 0)
    (hc1 : parsedCommission p₁ = ParsedNumber.num c₁)
    (he1 : extractEmailFromReferral p₁ = some e₁)
    (hid2 : p₂.id = some id)
    (hc2 : parsedCommission p₂ = ParsedNumber.num c₂)
    (he2 : extractEmailFromReferral p₂ = some e₂) :
    id ∈ ((jsMapGet (storeReferralCredit (storeReferralCredit s p₁)
        p₂).customerToReferrals e₁).getD []) ∧
      id ∈ ((jsMapGet (storeReferralCredit (storeReferralCredit s p₁)
          p₂).customerToReferrals e₂).getD []) ∧
      (jsMapGet (storeReferralCredit (storeReferralCredit s p₁) p₂).referralCredits
          id).map (fun r => r.remainingCommission) = some c₂ ∧
      c₂ ≤ getTotalCreditForCustomer (storeReferralCredit (storeReferralCredit s p₁) p₂)
          e₁ ∧
      c₂ ≤ getTotalCreditForCustomer (storeReferralCredit (storeReferralCredit s p₁) p₂)
          e₂ := by
  have hm1 : id ∈ ((jsMapGet (storeReferralCredit s p₁).customerToReferrals e₁).getD []) :=
    storeReferralCredit_mem_index s p₁ id c₁ e₁ hid1 hid0 hc1 he1
  have hother : jsMapGet (storeReferralCredit (storeReferralCredit s p₁)
      p₂).customerToReferrals e₁
      = jsMapGet (storeReferralCredit s p₁).customerToReferrals e₁ :=
    storeReferralCredit_index_other (storeReferralCredit s p₁) p₂ id c₂ e₂ e₁ hne hid2
      hid0 hc2 he2
  have hmem1 : id ∈ ((jsMapGet (storeReferralCredit (storeReferralCredit s p₁)
      p₂).customerToReferrals e₁).getD []) := by rw [hother]; exact hm1
  have hmem2 : id ∈ ((jsMapGet (storeReferralCredit (storeReferralCredit s p₁)
      p₂).customerToReferrals e₂).getD []) :=
    storeReferralCredit_mem_index (storeReferralCredit s p₁) p₂ id c₂ e₂ hid2 hid0 hc2 he2
  have hop1 : opStoresNonNeg (LedgerOp.store p₁) = true := by
    simp only [opStoresNonNeg, hc1, decide_eq_true_eq]
    exact hc1nn
  have hop2 : opStoresNonNeg (LedgerOp.store p₂) = true := by
    simp only [opStoresNonNeg, hc2, decide_eq_true_eq]
    exact hc2nn
  have hnn2 : NonNegState (storeReferralCredit (storeReferralCredit s p₁) p₂) :=
    storeReferralCredit_nonneg _ p₂ (storeReferralCredit_nonneg s p₁ hnn hop1) hop2
  have hrec : jsMapGet (storeReferralCredit (storeReferralCredit s p₁)
      p₂).referralCredits id
      = some (CreditRecord.mk id p₂.affiliate_id p₂.affiliate_email e₂ c₂
          p₂.created_at) := by
    rw [storeReferralCredit_accept _ p₂ id c₂ e₂ hid2 hid0 hc2 he2]
    exact jsMapGet_set_self _ _ _
  refine ⟨hmem1, hmem2, by rw [hrec]; rfl, ?_, ?_⟩
  · rcases hg : jsMapGet (storeReferralCredit (storeReferralCredit s p₁)
        p₂).customerToReferrals e₁ with _ | ids₁
    · rw [hg] at hmem1
      simp at hmem1
    · rw [hg] at hmem1
      simp only [Option.getD_some] at hmem1
      have := record_le_total _ e₁ ids₁ id _ hg hmem1 hrec
      simpa using this
  · rcases hg : jsMapGet (storeReferralCredit (storeReferralCredit s p₁)
        p₂).customerToReferrals e₂ with _ | ids₂
    · rw [hg] at hmem2
      simp at hmem2
    · rw [hg] at hmem2
      simp only [Option.getD_some] at hmem2
      have := record_le_total _ e₂ ids₂ id _ hg hmem2 hrec
      simpa using this

/-- Witness for C10: referral 7 stored for `a@x` (5) then `b@x` (7) is in
both index sets and its 7 units count toward both customers' totals. -/
theorem C10_witness :
    7 ∈ ((jsMapGet sAB.customerToReferrals "a@x").getD []) ∧
      7 ∈ ((jsMapGet sAB.customerToReferrals "b@x").getD []) ∧
      (jsMapGet sAB.referralCredits 7).map (fun r => r.remainingCommission) = some 7 ∧
      (7 : ℚ) ≤ getTotalCreditForCustomer sAB "a@x" ∧
      (7 : ℚ) ≤ getTotalCreditForCustomer sAB "b@x" :=
  C10_shared_referral LedgerState.initial pA pB 7 5 7 "a@x" "b@x"
    (by intro p hp; simp [LedgerState.initial] at hp)
    (by norm_num) (by norm_num) (by decide) rfl (by decide) rfl rfl rfl rfl rfl

end UppromoteSealBridge
